import Mathlib

/-!
Shallow embedding of the danvolchek/wordle solver.

The Go program is embedded as follows: Go strings become lists of
characters, the wordHint array becomes a list of letterHint values,
float64 arithmetic is idealized as real arithmetic, and the worker
pool's sharded entropy computation is modelled by explicit index
arithmetic over the precomputed hint table.  Every definition mirrors
the corresponding Go function; doc comments name the source symbol.
-/

set_option maxRecDepth 8000

/-- Source constant wordSize = 5 (wordle.go). -/
def wordSize : Nat := 5

/-- Source type letterHint (hint.go): absent, present, correct, in that
order (Go iota 0, 1, 2). -/
inductive letterHint where
  | absent
  | present
  | correct
deriving DecidableEq, Fintype

open letterHint

/-- Source type wordHint: an array of wordSize letterHints, embedded as a
list (all hints the program builds have length wordSize). -/
abbrev wordHint := List letterHint

/-- A Go string, embedded as the list of its characters. -/
abbrev Word := List Char

/-- Indexing a Go string: guess[i].  In the program all indexed words have
length wordSize, so the default is never produced on the paths we verify. -/
def charAt (w : Word) (i : Nat) : Char :=
  w.getD i '?'

/-- Pass 1 of createHint (hint.go): the unscramble map, keyed by answer
position, initialized to -1 (none) and set to the same index wherever
guess letter and answer letter agree. -/
def pass1 (guess answer : Word) : List (Option Nat) :=
  (List.range wordSize).map fun i =>
    if charAt guess i = charAt answer i then some i else none

/-- One iteration of pass 2 of createHint for guess position i: if the
guess letter differs from the answer letter at i, scan answer positions
left to right for the first unconsumed occurrence of the guess letter and
consume it. -/
def pass2step (guess answer : Word) (uns : List (Option Nat)) (i : Nat) :
    List (Option Nat) :=
  if charAt guess i = charAt answer i then uns
  else
    match (List.range wordSize).find? (fun j =>
        (charAt answer j == charAt guess i) && (uns.getD j none).isNone) with
    | some j => uns.set j (some i)
    | none => uns

/-- The full unscramble map built by createHint: pass 1 then pass 2 over
all guess positions in order. -/
def unscramble (guess answer : Word) : List (Option Nat) :=
  (List.range wordSize).foldl (pass2step guess answer) (pass1 guess answer)

/-- The final loop of createHint: from the unscramble assignment build the
hint, starting from all absent (the Go zero value). -/
def hintFromUnscramble (uns : List (Option Nat)) : wordHint :=
  (List.range wordSize).foldl (fun hint idx =>
    match uns.getD idx none with
    | some m => if m = idx then hint.set m correct else hint.set m present
    | none => hint) (List.replicate wordSize absent)

/-- Source function createHint (hint.go): the hint produced by scoring
guess against answer. -/
def createHint (guess answer : Word) : wordHint :=
  hintFromUnscramble (unscramble guess answer)

/-- Source type constraint (wordle.go): a word hint together with the
guessed word. -/
structure constraint where
  hint : wordHint
  word : Word

/-- Source method constraint.satisfies (wordle.go). -/
def constraint.satisfies (c : constraint) (w : Word) : Bool :=
  createHint c.word w == c.hint

/-- Source method constraint.filter (wordle.go): the subsequence of the
dictionary satisfying the constraint, order preserved. -/
def constraint.filter (c : constraint) (dictionary : List Word) : List Word :=
  dictionary.filter c.satisfies

/-- Source method constraint.filterNum (wordle.go): the number of
dictionary words satisfying the constraint. -/
def constraint.filterNum (c : constraint) (dictionary : List Word) : Nat :=
  dictionary.countP c.satisfies

/-- The odometer increment step inside allPossibleWordHints (entropy.go):
trailing correct digits reset to absent and the next digit advances;
none models the early return when the whole odometer overflows. -/
def nextWordHint : List letterHint → Option (List letterHint)
  | [] => none
  | absent :: rest => some (present :: rest)
  | present :: rest => some (correct :: rest)
  | correct :: rest => (nextWordHint rest).map (absent :: ·)

/-- The fill loop of allPossibleWordHints: record the current odometer
value n times, stopping early if the odometer overflows. -/
def buildWordHints : Nat → wordHint → List wordHint
  | 0, _ => []
  | n + 1, current =>
    current ::
      (match nextWordHint current with
       | some nxt => buildWordHints n nxt
       | none => [])

/-- Source function allPossibleWordHints (entropy.go): all 3^wordSize hint
patterns in odometer order. -/
def allPossibleWordHints : List wordHint :=
  buildWordHints (3 ^ wordSize) (List.replicate wordSize absent)

/-- Source package variable possibleWordHints (entropy.go). -/
def possibleWordHints : List wordHint := allPossibleWordHints

/-- Source package variable numPossibleWordHints (entropy.go). -/
def numPossibleWordHints : Nat := possibleWordHints.length

/-- The base-3 digits of i, least significant first, as a word hint with
digit order absent < present < correct. -/
def letterOfDigit : Nat → letterHint
  | 0 => absent
  | 1 => present
  | _ => correct

/-- The hint whose base-3 digit at position k is i / 3^k % 3: position 0 is
the least significant digit. -/
def natToHint (i : Nat) : wordHint :=
  [letterOfDigit (i % 3), letterOfDigit (i / 3 % 3), letterOfDigit (i / 9 % 3),
   letterOfDigit (i / 27 % 3), letterOfDigit (i / 81 % 3)]

/-- The base-3 digit of a letter hint: absent 0, present 1, correct 2. -/
def digitOfLetter : letterHint → Nat
  | absent => 0
  | present => 1
  | correct => 2

/-- The base-3 value of a hint, inverse to natToHint on wordSize-digit
hints: position 0 is the least significant digit. -/
def hintToNat (h : wordHint) : Nat :=
  h.foldr (fun l acc => digitOfLetter l + 3 * acc) 0

/-- hintsPerWorker in newEntropyWorkerPool (entropy.go): integer division
plus one. -/
def hintsPerWorker (numWorkers : Nat) : Nat :=
  numPossibleWordHints / numWorkers + 1

/-- startHint for worker k in newEntropyWorkerPool. -/
def shardStart (numWorkers k : Nat) : Nat :=
  k * hintsPerWorker numWorkers

/-- stopHint for worker k in newEntropyWorkerPool, after the clamp to
numPossibleWordHints. -/
def shardStop (numWorkers k : Nat) : Nat :=
  min ((k + 1) * hintsPerWorker numWorkers) numPossibleWordHints

/-- The hint shard possibleWordHints[startHint:stopHint] handed to worker k
at pool creation. -/
def workerHints (numWorkers k : Nat) : List wordHint :=
  (possibleWordHints.take (shardStop numWorkers k)).drop (shardStart numWorkers k)

/-- Pool creation succeeds: every worker's slice lower bound is within the
hint table (otherwise the Go slice expression panics). -/
def poolOk (numWorkers : Nat) : Prop :=
  ∀ k, k < numWorkers → shardStart numWorkers k ≤ numPossibleWordHints

/-- Source method entropyWorker.calculateEntropy (entropy.go): the partial
entropy summed over this worker's hint shard.  A hint whose filterNum is
zero is skipped, so no logarithm is ever taken at zero. -/
noncomputable def workerCalculateEntropy (hints : List wordHint) (w : Word)
    (dictionary : List Word) : ℝ :=
  hints.foldl (fun entropy h =>
    let remainingSize : ℝ := ((constraint.mk h w).filterNum dictionary : ℝ)
    if remainingSize = 0 then entropy
    else
      let probability := remainingSize / (dictionary.length : ℝ)
      entropy + Real.logb 2 (1 / probability) * probability) 0

/-- Source method entropyWorkerPool.calculateEntropy together with
collectWorkerResults (entropy.go): every worker computes its partial over
its own shard, and the partials are summed in increasing worker index
order. -/
noncomputable def poolCalculateEntropy (numWorkers : Nat) (w : Word)
    (dictionary : List Word) : ℝ :=
  ((List.range numWorkers).map fun k =>
      workerCalculateEntropy (workerHints numWorkers k) w dictionary).foldl (· + ·) 0

/-- Storing one tagged worker result into the fixed-size result buffer:
results[result.workerNum] = result.entropy. -/
def setBuffer (buf : List ℝ) (r : Nat × ℝ) : List ℝ :=
  buf.set r.1 r.2

/-- Source method entropyWorkerPool.collectWorkerResults (entropy.go):
the tagged partials arrive in some order, each is stored into the buffer
slot named by its workerNum tag, and once all have arrived the buffer is
summed in increasing worker index order. -/
noncomputable def collectWorkerResults (numWorkers : Nat)
    (arrivals : List (Nat × ℝ)) : ℝ :=
  (arrivals.foldl setBuffer (List.replicate numWorkers (0 : ℝ))).foldl (· + ·) 0

/-- The spec formula for entropy: the sum over all hint patterns h of
p(h) * log2(1 / p(h)) with p(h) = filterNum(constraint{word, h}) / |d|.
Stated from the spec's words for comparison with the pool computation. -/
noncomputable def specEntropyFormula (w : Word) (dictionary : List Word) : ℝ :=
  (possibleWordHints.map fun h =>
    let p : ℝ := ((constraint.mk h w).filterNum dictionary : ℝ) / (dictionary.length : ℝ)
    p * Real.logb 2 (1 / p)).sum

/-- Source method Game.getBestGuess (game.go), non-first-guess branch:
fold over the dictionary keeping the first word whose entropy strictly
exceeds the running best, starting from ("", 0). -/
noncomputable def getBestGuess (numWorkers : Nat) (dictionary : List Word) :
    Word × ℝ :=
  dictionary.foldl (fun best potentialGuess =>
    let info := poolCalculateEntropy numWorkers potentialGuess dictionary
    if best.2 < info then (potentialGuess, info) else best) ([], 0)

/-- The observable outcome of the Play loop (game.go): normal termination
with the answer and guess count, the empty-dictionary panic, or still
running when the supplied move list is exhausted. -/
inductive playOutcome where
  | solved (answer : Word) (guesses : Nat)
  | fatal
  | running (dictionary : List Word) (guesses : Nat)
deriving DecidableEq

/-- Source method Game.Play (game.go), with the player's successive
(guess, hint) pairs supplied as a list: while the dictionary has size
other than one, filter by the round's constraint; an empty filter result
is the panic path; reaching size one returns the remaining word and the
guess count. -/
def playLoop (moves : List (Word × wordHint)) :
    List Word → Nat → playOutcome :=
  match moves with
  | [] => fun dictionary guessCount =>
      if dictionary.length = 1 then .solved (dictionary.headD []) guessCount
      else .running dictionary guessCount
  | (guess, hint) :: rest => fun dictionary guessCount =>
      if dictionary.length = 1 then .solved (dictionary.headD []) guessCount
      else
        let next := (constraint.mk hint guess).filter dictionary
        if next.length = 0 then .fatal
        else playLoop rest next (guessCount + 1)

/-- The dictionary after filtering by a sequence of (guess, hint) rounds in
order. -/
def applyMoves (moves : List (Word × wordHint)) (dictionary : List Word) :
    List Word :=
  moves.foldl (fun d m => (constraint.mk m.2 m.1).filter d) dictionary

instance (n : Nat) : Decidable (poolOk n) :=
  decidable_of_iff (∀ k, k < n → shardStart n k ≤ numPossibleWordHints) Iff.rfl

lemma foldl_range_inv {β : Type*} (f : β → Nat → β) (P : Nat → β → Prop) :
    ∀ (n : Nat) (init : β), P 0 init →
      (∀ t b, t < n → P t b → P (t + 1) (f b t)) →
      P n ((List.range n).foldl f init) := by
  intro n
  induction n with
  | zero => intro init h0 _; simpa using h0
  | succ m ih =>
    intro init h0 hstep
    rw [List.range_succ, List.foldl_append]
    exact hstep m _ (Nat.lt_succ_self m)
      (ih init h0 fun t b ht hb => hstep t b (Nat.lt_succ_of_lt ht) hb)

lemma natToHint_zero : natToHint 0 = List.replicate wordSize absent := by
  decide

lemma nextWordHint_natToHint :
    ∀ i, i < 3 ^ wordSize - 1 →
      nextWordHint (natToHint i) = some (natToHint (i + 1)) := by
  decide

lemma nextWordHint_last :
    nextWordHint (natToHint (3 ^ wordSize - 1)) = none := by
  decide

lemma hintToNat_natToHint :
    ∀ i, i < 3 ^ wordSize → hintToNat (natToHint i) = i := by
  decide

lemma natToHint_hintToNat :
    ∀ a b c d e : letterHint,
      natToHint (hintToNat [a, b, c, d, e]) = [a, b, c, d, e] ∧
      hintToNat [a, b, c, d, e] < 3 ^ wordSize := by
  decide

lemma buildWordHints_spec :
    ∀ (k i : Nat), i + k = 3 ^ wordSize →
      buildWordHints k (natToHint i)
        = (List.range k).map (fun j => natToHint (i + j)) := by
  intro k
  induction k with
  | zero =>
    intro i hi
    simp [buildWordHints]
  | succ m ih =>
    intro i hi
    have h35 : 3 ^ wordSize = 243 := by decide
    by_cases hm : m = 0
    · subst hm
      have hi242 : i = 3 ^ wordSize - 1 := by omega
      subst hi242
      simp only [buildWordHints, nextWordHint_last]
      simp [List.range_succ]
    · have hilt : i < 3 ^ wordSize - 1 := by omega
      simp only [buildWordHints, nextWordHint_natToHint i hilt]
      rw [ih (i + 1) (by omega)]
      rw [List.range_succ_eq_map, List.map_cons, List.map_map]
      refine List.cons_eq_cons.mpr ⟨by simp, ?_⟩
      exact List.map_congr_left fun j _ => by
        simp only [Function.comp_apply]
        congr 1
        omega

lemma allHints_eq_map :
    allPossibleWordHints = (List.range (3 ^ wordSize)).map natToHint := by
  unfold allPossibleWordHints
  rw [show List.replicate wordSize absent = natToHint 0 from natToHint_zero.symm]
  rw [buildWordHints_spec (3 ^ wordSize) 0 (by omega)]
  exact List.map_congr_left fun j _ => by rw [Nat.zero_add]

lemma allHints_len : allPossibleWordHints.length = 3 ^ wordSize := by
  rw [allHints_eq_map]
  simp

lemma allHints_getD :
    ∀ i, i < 3 ^ wordSize → allPossibleWordHints.getD i [] = natToHint i := by
  intro i hi
  rw [allHints_eq_map, List.getD_eq_getElem?_getD, List.getElem?_map,
    List.getElem?_range hi]
  rfl

lemma allHints_nodup : allPossibleWordHints.Nodup := by
  rw [allHints_eq_map]
  refine List.Nodup.map_on ?_ (List.nodup_range _)
  intro x hx y hy hxy
  have h1 := hintToNat_natToHint x (List.mem_range.mp hx)
  have h2 := hintToNat_natToHint y (List.mem_range.mp hy)
  rw [← h1, ← h2, hxy]

lemma countP_eq_one_of_nodup {α : Type*} (p : α → Bool) :
    ∀ (l : List α), l.Nodup → ∀ a, a ∈ l → p a = true →
      (∀ b ∈ l, p b = true → b = a) → l.countP p = 1 := by
  intro l
  induction l with
  | nil => intro _ a ha; cases ha
  | cons x t ih =>
    intro hnd a ha hpa huniq
    rw [List.countP_cons]
    rcases List.mem_cons.mp ha with rfl | hat
    · have ht0 : t.countP p = 0 := by
        rw [List.countP_eq_zero]
        intro b hb hpb
        have hba := huniq b (List.mem_cons_of_mem a hb) hpb
        subst hba
        exact (List.nodup_cons.mp hnd).1 hb
      rw [ht0, hpa]
      simp
    · have hxf : ¬p x = true := by
        intro hh
        have hxa := huniq x (List.mem_cons_self x t) hh
        subst hxa
        exact (List.nodup_cons.mp hnd).1 hat
      rw [ih (List.nodup_cons.mp hnd).2 a hat hpa
        (fun b hb hpb => huniq b (List.mem_cons_of_mem x hb) hpb)]
      simp [hxf]

lemma allHints_count :
    ∀ a b c d e : letterHint, allPossibleWordHints.count [a, b, c, d, e] = 1 := by
  intro a b c d e
  obtain ⟨heq, hlt⟩ := natToHint_hintToNat a b c d e
  have hmem : [a, b, c, d, e] ∈ allPossibleWordHints := by
    rw [allHints_eq_map, ← heq]
    exact List.mem_map_of_mem _ (List.mem_range.mpr hlt)
  show allPossibleWordHints.countP (· == [a, b, c, d, e]) = 1
  exact countP_eq_one_of_nodup _ allPossibleWordHints allHints_nodup
    [a, b, c, d, e] hmem (by simp) (fun b hb hpb => by simpa using hpb)

/-- C3: allPossibleWordHints returns exactly 3^5 = 243 hints, every
5-tuple over the three letter hints appears exactly once, and the table is
in odometer order: entry i is the base-3 expansion of i with position 0
the least significant digit and digit order absent < present < correct. -/
theorem claim_C3_allPossibleWordHints_enumeration :
    allPossibleWordHints.length = 3 ^ wordSize ∧
    (∀ i, i < 3 ^ wordSize → allPossibleWordHints.getD i [] = natToHint i) ∧
    (∀ a b c d e : letterHint,
        allPossibleWordHints.count [a, b, c, d, e] = 1) :=
  ⟨allHints_len, allHints_getD, allHints_count⟩

theorem claim_C3_witness :
    allPossibleWordHints.getD 7 [] = natToHint 7 :=
  claim_C3_allPossibleWordHints_enumeration.2.1 7 (by decide)

lemma satisfies_self_hint (g a : Word) :
    (constraint.mk (createHint g a) g).satisfies a = true := by
  simp [constraint.satisfies]

/-- C8: the constraint built from the true answer's own hint is satisfied
by the answer (satisfies just re-runs createHint and compares), hence one
round of filtering never removes the answer, and iterating rounds in
oracle mode (hint always createHint(guess, answer)) keeps the answer in
the dictionary forever. -/
theorem claim_C8_answer_never_removed :
    (∀ g a : Word, (constraint.mk (createHint g a) g).satisfies a = true) ∧
    (∀ (g a : Word) (d : List Word), a ∈ d →
        a ∈ (constraint.mk (createHint g a) g).filter d) ∧
    (∀ (a : Word) (guesses : List Word) (d : List Word), a ∈ d →
        a ∈ guesses.foldl
          (fun dict g => (constraint.mk (createHint g a) g).filter dict) d) := by
  refine ⟨satisfies_self_hint, ?_, ?_⟩
  · intro g a d ha
    exact List.mem_filter.mpr ⟨ha, satisfies_self_hint g a⟩
  · intro a guesses
    induction guesses with
    | nil => intro d ha; simpa using ha
    | cons g rest ih =>
      intro d ha
      exact ih _ (List.mem_filter.mpr ⟨ha, satisfies_self_hint g a⟩)

theorem claim_C8_witness :
    ['c','r','a','n','e'] ∈
      ((constraint.mk
          (createHint ['t','a','r','e','s'] ['c','r','a','n','e'])
          ['t','a','r','e','s']).filter
        [['c','r','a','n','e'], ['s','l','a','t','e']]) :=
  claim_C8_answer_never_removed.2.1 ['t','a','r','e','s'] ['c','r','a','n','e']
    [['c','r','a','n','e'], ['s','l','a','t','e']] (by decide)

lemma take_min_length {α : Type*} (xs : List α) (h : Nat) :
    xs.take (min h xs.length) = xs.take h := by
  rcases le_total h xs.length with hle | hle
  · rw [min_eq_left hle]
  · rw [min_eq_right hle, List.take_length, List.take_of_length_le hle]

lemma workerHints_chunk (N k : Nat) :
    workerHints N k
      = (possibleWordHints.drop (shardStart N k)).take (hintsPerWorker N) := by
  unfold workerHints shardStop shardStart
  rw [List.drop_take]
  have harith :
      min ((k + 1) * hintsPerWorker N) numPossibleWordHints - k * hintsPerWorker N
        = min (hintsPerWorker N)
            (numPossibleWordHints - k * hintsPerWorker N) := by
    have hsucc : (k + 1) * hintsPerWorker N
        = k * hintsPerWorker N + hintsPerWorker N := by ring
    omega
  rw [harith]
  have hlen : (possibleWordHints.drop (k * hintsPerWorker N)).length
      = numPossibleWordHints - k * hintsPerWorker N := by
    simp [List.length_drop, numPossibleWordHints]
  rw [← hlen, take_min_length]

lemma chunk_flatten {α : Type*} (h : Nat) :
    ∀ (N : Nat) (l : List α), l.length ≤ N * h →
      ((List.range N).map fun k => (l.drop (k * h)).take h).flatten = l := by
  intro N
  induction N with
  | zero =>
    intro l hl
    simp only [Nat.zero_mul, Nat.le_zero] at hl
    simp [List.length_eq_zero.mp hl]
  | succ M ih =>
    intro l hl
    rw [List.range_succ_eq_map, List.map_cons, List.flatten_cons, List.map_map]
    have hmap : ((fun k => (l.drop (k * h)).take h) ∘ Nat.succ)
        = fun k => (((l.drop h).drop (k * h)).take h) := by
      funext k
      simp only [Function.comp_apply]
      rw [List.drop_drop]
      congr 2
      rw [Nat.succ_mul]
      ring
    have hlen : (l.drop h).length ≤ M * h := by
      have hsm : (M + 1) * h = M * h + h := by ring
      simp only [List.length_drop]
      omega
    rw [hmap, ih (l.drop h) hlen]
    simp

lemma numHints_le_mul (N : Nat) (hN : 1 ≤ N) :
    numPossibleWordHints ≤ N * hintsPerWorker N := by
  unfold hintsPerWorker
  have hmod := Nat.div_add_mod numPossibleWordHints N
  have hlt : numPossibleWordHints % N < N := Nat.mod_lt _ hN
  have hmul : N * (numPossibleWordHints / N + 1)
      = N * (numPossibleWordHints / N) + N := by ring
  omega

lemma workerHints_flatten (N : Nat) (hN : 1 ≤ N) :
    ((List.range N).map (workerHints N)).flatten = possibleWordHints := by
  have hc : (List.range N).map (workerHints N)
      = (List.range N).map
          (fun k => (possibleWordHints.drop (k * hintsPerWorker N)).take
            (hintsPerWorker N)) :=
    List.map_congr_left fun k _ => workerHints_chunk N k
  rw [hc]
  exact chunk_flatten (hintsPerWorker N) N possibleWordHints
    (by simpa [numPossibleWordHints] using numHints_le_mul N hN)

lemma workerHints_length (N k : Nat) :
    (workerHints N k).length = shardStop N k - shardStart N k := by
  unfold workerHints
  rw [List.length_drop, List.length_take]
  have hle : shardStop N k ≤ possibleWordHints.length :=
    min_le_right ((k + 1) * hintsPerWorker N) numPossibleWordHints
  omega

lemma numHints_eq : numPossibleWordHints = 3 ^ wordSize := by
  rw [numPossibleWordHints, possibleWordHints]
  exact allHints_len

lemma poolOk_of_le (N : Nat)
    (h : ∀ k, k < N → k * (3 ^ wordSize / N + 1) ≤ 3 ^ wordSize) : poolOk N := by
  intro k hk
  unfold shardStart hintsPerWorker
  rw [numHints_eq]
  exact h k hk

/-- C4 counterexample: the claim says shard size equals the ceiling of
243 / N, but with N = 3 workers the code gives worker 0 a shard of 82
patterns while ceil(243/3) = 81; and the claim says every shard range is
within the bounds of the pattern table for every N >= 1, but with N = 20
workers worker 19's start offset is 247 > 243, so pool creation slices out
of range. -/
theorem claim_C4_counterexample :
    (workerHints 3 0).length = 82 ∧ (3 ^ wordSize + 3 - 1) / 3 = 81 ∧
    shardStart 20 19 = 247 ∧ ¬ poolOk 20 := by
  have h243 : numPossibleWordHints = 243 := by
    rw [numHints_eq]
    decide
  refine ⟨?_, by decide, ?_, ?_⟩
  · rw [workerHints_length]
    unfold shardStop shardStart hintsPerWorker
    rw [h243]
    norm_num
  · unfold shardStart hintsPerWorker
    rw [h243]
  · intro hok
    have h19 := hok 19 (by norm_num)
    unfold shardStart hintsPerWorker at h19
    rw [h243] at h19
    norm_num at h19

/-- C4 amended: for every worker count N >= 1 for which pool creation
succeeds (every worker's slice start within the 243-entry table, true for
example for all N <= 19 but false for N = 20), the pool partitions the
hint table into N contiguous non-overlapping shards fixed at creation
time: concatenating the shards in worker order gives back the whole
table, worker k's shard runs from k*(floor(243/N)+1) to the minimum of
(k+1)*(floor(243/N)+1) and 243 (so shard size is floor(243/N)+1, with
the final shards truncated), and every hint pattern belongs to exactly
one worker's shard. -/
theorem claim_C4_pool_partition (N : Nat) (hN : 1 ≤ N) (hok : poolOk N) :
    ((List.range N).map (workerHints N)).flatten = possibleWordHints ∧
    (∀ k, k < N → (workerHints N k).length = shardStop N k - shardStart N k) ∧
    (∀ k, shardStart N (k + 1) = shardStart N k + hintsPerWorker N) ∧
    (∀ h, h ∈ possibleWordHints → ∃! k, k < N ∧ h ∈ workerHints N k) := by
  refine ⟨workerHints_flatten N hN, fun k _ => workerHints_length N k,
    fun k => by unfold shardStart; ring, ?_⟩
  have hflat := workerHints_flatten N hN
  have hnodup : ((List.range N).map (workerHints N)).flatten.Nodup := by
    rw [hflat]; exact allHints_nodup
  have hdisj := (List.nodup_flatten.mp hnodup).2
  have hpair : List.Pairwise
      (fun k1 k2 => List.Disjoint (workerHints N k1) (workerHints N k2))
      (List.range N) := List.pairwise_map.mp hdisj
  intro h hm
  rw [← hflat] at hm
  obtain ⟨l, hl, hhl⟩ := List.mem_flatten.mp hm
  obtain ⟨k, hk, rfl⟩ := List.mem_map.mp hl
  have hkN : k < N := List.mem_range.mp hk
  refine ⟨k, ⟨hkN, hhl⟩, ?_⟩
  intro k2 ⟨hk2N, hk2m⟩
  by_contra hne
  have key : ∀ i j, i < N → j < N → i < j →
      List.Disjoint (workerHints N i) (workerHints N j) := by
    intro i j hi hj hij
    have hp := List.pairwise_iff_getElem.mp hpair i j
      (by simpa using hi) (by simpa using hj) hij
    simpa using hp
  rcases Nat.lt_or_ge k2 k with hlt | hge
  · exact key k2 k hk2N hkN hlt hk2m hhl
  · have hlt : k < k2 := lt_of_le_of_ne hge fun h2 => hne h2.symm
    exact key k k2 hkN hk2N hlt hhl hk2m

theorem claim_C4_witness :
    ((List.range 3).map (workerHints 3)).flatten = possibleWordHints :=
  (claim_C4_pool_partition 3 (by norm_num) (poolOk_of_le 3 (by decide))).1

/-- C9: inside the Play loop, a round whose filtering empties the
dictionary makes the loop abort at once with the panic outcome, ignoring
all later moves; a dictionary of size one terminates normally with the
remaining word and current guess count; a round whose filter keeps at
least one candidate just continues the loop on the filtered dictionary
with the count incremented; and whenever the loop ends in the panic
outcome there really was a round whose filtering emptied the dictionary
(after earlier rounds that left non-singleton dictionaries), so the
exhausted dictionary is the only fatal termination path. -/
theorem claim_C9_play_loop_fatal_only_on_empty :
    (∀ g h (rest : List (Word × wordHint)) d c, d.length ≠ 1 →
        ((constraint.mk h g).filter d).length = 0 →
        playLoop ((g, h) :: rest) d c = .fatal) ∧
    (∀ g h (rest : List (Word × wordHint)) d c, d.length ≠ 1 →
        ((constraint.mk h g).filter d).length ≠ 0 →
        playLoop ((g, h) :: rest) d c
          = playLoop rest ((constraint.mk h g).filter d) (c + 1)) ∧
    (∀ (moves : List (Word × wordHint)) d c, d.length = 1 →
        playLoop moves d c = .solved (d.headD []) c) ∧
    (∀ (moves : List (Word × wordHint)) d c, playLoop moves d c = .fatal →
        ∃ k, k < moves.length ∧
          (∀ i, i ≤ k → (applyMoves (moves.take i) d).length ≠ 1) ∧
          (applyMoves (moves.take (k + 1)) d).length = 0) := by
  refine ⟨?_, ?_, ?_, ?_⟩
  · intro g h rest d c h1 h0
    simp [playLoop, h1, h0]
  · intro g h rest d c h1 h0
    simp [playLoop, h1, h0]
  · intro moves d c h1
    cases moves with
    | nil => simp [playLoop, h1]
    | cons m rest => obtain ⟨g, h⟩ := m; simp [playLoop, h1]
  · intro moves
    induction moves with
    | nil =>
      intro d c hf
      unfold playLoop at hf
      split at hf <;> simp_all
    | cons m rest ih =>
      obtain ⟨g, h⟩ := m
      intro d c hf
      by_cases h1 : d.length = 1
      · simp [playLoop, h1] at hf
      by_cases h0 : ((constraint.mk h g).filter d).length = 0
      · refine ⟨0, by simp, ?_, ?_⟩
        · intro i hi
          interval_cases i
          simpa [applyMoves] using h1
        · simpa [applyMoves] using h0
      · have hf2 : playLoop rest ((constraint.mk h g).filter d) (c + 1)
            = .fatal := by
          simpa [playLoop, h1, h0] using hf
        obtain ⟨k, hk, hmid, hend⟩ := ih _ _ hf2
        refine ⟨k + 1, by simpa using hk, ?_, ?_⟩
        · intro i hi
          cases i with
          | zero => simpa [applyMoves] using h1
          | succ i' =>
            have : applyMoves (((g, h) :: rest).take (i' + 1)) d
                = applyMoves (rest.take i') ((constraint.mk h g).filter d) := by
              simp [List.take_succ_cons, applyMoves]
            rw [this]
            exact hmid i' (by omega)
        · have : applyMoves (((g, h) :: rest).take (k + 2)) d
              = applyMoves (rest.take (k + 1)) ((constraint.mk h g).filter d) := by
            simp [List.take_succ_cons, applyMoves]
          rw [this]
          exact hend

theorem claim_C9_witness :
    playLoop [(['v','w','x','y','z'], List.replicate 5 correct)]
      [['a','a','a','a','a'], ['b','b','b','b','b']] 1 = .fatal :=
  claim_C9_play_loop_fatal_only_on_empty.1
    ['v','w','x','y','z'] (List.replicate 5 correct) []
    [['a','a','a','a','a'], ['b','b','b','b','b']] 1 (by decide) (by decide)

lemma foldl_setBuffer_length (arr : List (Nat × ℝ)) :
    ∀ b : List ℝ, (arr.foldl setBuffer b).length = b.length := by
  induction arr with
  | nil => intro b; rfl
  | cons r rest ih =>
    intro b
    simp only [List.foldl_cons]
    rw [ih]
    simp [setBuffer]

lemma foldl_setBuffer_getElem_of_not_mem (arr : List (Nat × ℝ)) (j : Nat)
    (hj : j ∉ arr.map Prod.fst) :
    ∀ b : List ℝ, (arr.foldl setBuffer b)[j]? = b[j]? := by
  induction arr with
  | nil => intro b; rfl
  | cons r rest ih =>
    intro b
    simp only [List.map_cons, List.mem_cons] at hj
    push_neg at hj
    simp only [List.foldl_cons]
    rw [ih hj.2, setBuffer, List.getElem?_set_ne (fun h => hj.1 h.symm)]

lemma foldl_setBuffer_keys (f : Nat → ℝ) :
    ∀ (ks : List Nat), ks.Nodup →
      ∀ b : List ℝ, (∀ k ∈ ks, k < b.length) → ∀ j ∈ ks,
        ((ks.map fun k => (k, f k)).foldl setBuffer b)[j]? = some (f j) := by
  intro ks
  induction ks with
  | nil => intro _ b _ j hj; simp at hj
  | cons k t ih =>
    intro hnd b hb j hj
    have hknd := List.nodup_cons.mp hnd
    simp only [List.map_cons, List.foldl_cons]
    rcases List.mem_cons.mp hj with rfl | hjt
    · have hnot : j ∉ ((t.map fun k => (k, f k)).map Prod.fst) := by
        rw [List.map_map]
        simpa using hknd.1
      rw [foldl_setBuffer_getElem_of_not_mem (t.map fun k => (k, f k)) j hnot
        (setBuffer b (j, f j)), setBuffer, List.getElem?_set_self (hb j hj)]
    · exact ih hknd.2 (setBuffer b (k, f k))
        (fun k2 hk2 => by simpa [setBuffer] using hb k2 (List.mem_cons_of_mem _ hk2))
        j hjt

lemma collect_canonical (N : Nat) (f : Nat → ℝ) :
    ((List.range N).map fun k => (k, f k)).foldl setBuffer
        (List.replicate N (0 : ℝ))
      = (List.range N).map f := by
  apply List.ext_getElem?
  intro j
  by_cases hj : j < N
  · rw [foldl_setBuffer_keys f (List.range N) (List.nodup_range N)
      (List.replicate N 0) (fun k hk => by simpa using List.mem_range.mp hk)
      j (List.mem_range.mpr hj)]
    rw [List.getElem?_map, List.getElem?_range hj]
    rfl
  · have h1 : (((List.range N).map fun k => (k, f k)).foldl setBuffer
        (List.replicate N (0 : ℝ))).length = N := by
      rw [foldl_setBuffer_length]; simp
    have hle1 : (((List.range N).map fun k => (k, f k)).foldl setBuffer
        (List.replicate N (0 : ℝ))).length ≤ j := by omega
    have hle2 : ((List.range N).map f).length ≤ j := by
      simp only [List.length_map, List.length_range]; omega
    rw [List.getElem?_eq_none hle1, List.getElem?_eq_none hle2]

/-- C6: collectWorkerResults is arrival-order independent: whatever order
the N tagged partials (k, f k) arrive in, each is stored in the buffer
slot named by its worker tag and the final sum is taken in increasing
worker index order, so the result is always the worker-index-ordered sum
of the fixed assignment f. -/
theorem claim_C6_collect_arrival_order_independent
    (N : Nat) (f : Nat → ℝ) (arrivals : List (Nat × ℝ))
    (hperm : arrivals.Perm ((List.range N).map fun k => (k, f k))) :
    collectWorkerResults N arrivals
      = ((List.range N).map f).foldl (· + ·) 0 := by
  unfold collectWorkerResults
  have hcomm : ∀ x ∈ arrivals, ∀ y ∈ arrivals, ∀ z : List ℝ,
      setBuffer (setBuffer z x) y = setBuffer (setBuffer z y) x := by
    intro x hx y hy z
    have hx2 := hperm.mem_iff.mp hx
    have hy2 := hperm.mem_iff.mp hy
    obtain ⟨k1, -, rfl⟩ := List.mem_map.mp hx2
    obtain ⟨k2, -, rfl⟩ := List.mem_map.mp hy2
    by_cases hk : k1 = k2
    · subst hk; rfl
    · simp only [setBuffer]
      exact List.set_comm _ _ z hk
  rw [List.Perm.foldl_eq' hperm hcomm, collect_canonical]

theorem claim_C6_witness :
    collectWorkerResults 2 [(1, (1 : ℝ)), (0, (0 : ℝ))]
      = ((List.range 2).map fun k => (k : ℝ)).foldl (· + ·) 0 :=
  claim_C6_collect_arrival_order_independent 2 (fun k => (k : ℝ))
    [(1, (1 : ℝ)), (0, (0 : ℝ))]
    (by
      have hr : ((List.range 2).map fun k => ((k : Nat), (k : ℝ)))
          = [(0, (0 : ℝ)), (1, (1 : ℝ))] := by
        norm_num [List.range_succ]
      rw [hr]
      exact List.Perm.swap _ _ _)

/-- The contribution of one hint pattern to a worker's entropy sum: zero
when the filter count is zero (the skipped case, where no logarithm is
evaluated), and otherwise log2(1/p) * p with p the filter count over the
dictionary size, exactly as in entropyWorker.calculateEntropy. -/
noncomputable def hintContribution (w : Word) (dictionary : List Word)
    (h : wordHint) : ℝ :=
  if ((constraint.mk h w).filterNum dictionary : ℝ) = 0 then 0
  else
    Real.logb 2
        (1 / (((constraint.mk h w).filterNum dictionary : ℝ)
          / (dictionary.length : ℝ)))
      * (((constraint.mk h w).filterNum dictionary : ℝ) / (dictionary.length : ℝ))

lemma foldl_step_sum {α : Type*} (f : ℝ → α → ℝ) (g : α → ℝ)
    (hf : ∀ c a, f c a = c + g a) :
    ∀ (l : List α) (c : ℝ), l.foldl f c = c + (l.map g).sum := by
  intro l
  induction l with
  | nil => intro c; simp
  | cons a t ih =>
    intro c
    rw [List.foldl_cons, hf, ih, List.map_cons, List.sum_cons]
    ring

lemma workerCalculateEntropy_eq_sum (hints : List wordHint) (w : Word)
    (dictionary : List Word) :
    workerCalculateEntropy hints w dictionary
      = (hints.map (hintContribution w dictionary)).sum := by
  unfold workerCalculateEntropy
  have hf : ∀ (c : ℝ) (h : wordHint),
      (fun (entropy : ℝ) (h : wordHint) =>
        let remainingSize : ℝ := ((constraint.mk h w).filterNum dictionary : ℝ)
        if remainingSize = 0 then entropy
        else
          let probability := remainingSize / (dictionary.length : ℝ)
          entropy + Real.logb 2 (1 / probability) * probability) c h
        = c + hintContribution w dictionary h := by
    intro c h
    show (if ((constraint.mk h w).filterNum dictionary : ℝ) = 0 then c
        else c + Real.logb 2
            (1 / (((constraint.mk h w).filterNum dictionary : ℝ)
              / (dictionary.length : ℝ)))
          * (((constraint.mk h w).filterNum dictionary : ℝ)
            / (dictionary.length : ℝ)))
        = c + hintContribution w dictionary h
    unfold hintContribution
    by_cases hz : ((constraint.mk h w).filterNum dictionary : ℝ) = 0
    · rw [if_pos hz, if_pos hz, add_zero]
    · rw [if_neg hz, if_neg hz]
  rw [foldl_step_sum _ (hintContribution w dictionary) hf hints 0, zero_add]

lemma pool_eq_total (N : Nat) (hN : 1 ≤ N) (w : Word) (dictionary : List Word) :
    poolCalculateEntropy N w dictionary
      = (possibleWordHints.map (hintContribution w dictionary)).sum := by
  unfold poolCalculateEntropy
  rw [List.sum_eq_foldl.symm]
  have hmapw : (List.range N).map
        (fun k => workerCalculateEntropy (workerHints N k) w dictionary)
      = (List.range N).map
        (fun k => ((workerHints N k).map (hintContribution w dictionary)).sum) :=
    List.map_congr_left fun k _ => workerCalculateEntropy_eq_sum _ w dictionary
  rw [hmapw, ← workerHints_flatten N hN, List.map_flatten, List.sum_flatten,
    List.map_map, List.map_map]
  rfl

lemma total_eq_spec (w : Word) (dictionary : List Word) :
    (possibleWordHints.map (hintContribution w dictionary)).sum
      = specEntropyFormula w dictionary := by
  unfold specEntropyFormula
  refine congrArg List.sum (List.map_congr_left fun h _ => ?_)
  unfold hintContribution
  by_cases hz : ((constraint.mk h w).filterNum dictionary : ℝ) = 0
  · simp [hz]
  · simp only [if_neg hz]
    ring

/-- C1: for every 5-letter word and non-empty dictionary, the pool
entropy (the worker-index-ordered sum of all per-shard worker partials)
equals the spec formula: the sum over all 243 hint patterns of
p(h) * log2(1/p(h)) with p(h) = filterNum / dictionary size; moreover a
pattern whose filterNum is zero contributes exactly zero, via the
worker's skip branch that never evaluates a logarithm at zero. -/
theorem claim_C1_pool_entropy_eq_spec_formula
    (N : Nat) (hN : 1 ≤ N) (hok : poolOk N) (w : Word) (hw : w.length = wordSize)
    (dictionary : List Word) (hd : dictionary ≠ []) :
    poolCalculateEntropy N w dictionary = specEntropyFormula w dictionary ∧
    (∀ h, (constraint.mk h w).filterNum dictionary = 0 →
        hintContribution w dictionary h = 0) := by
  refine ⟨?_, ?_⟩
  · rw [pool_eq_total N hN, total_eq_spec]
  · intro h hz
    simp [hintContribution, hz]

theorem claim_C1_witness :
    poolCalculateEntropy 4 ['c','r','a','n','e'] [['c','r','a','n','e']]
      = specEntropyFormula ['c','r','a','n','e'] [['c','r','a','n','e']] :=
  (claim_C1_pool_entropy_eq_spec_formula 4 (by norm_num)
    (poolOk_of_le 4 (by decide))
    ['c','r','a','n','e'] (by decide) [['c','r','a','n','e']] (by decide)).1

/-- C5: the pool entropy does not depend on the worker count: for any two
valid worker counts the sharded sums agree exactly (in the real-number
model of float64 arithmetic), because both equal the sum of contributions
over the full undivided pattern table. -/
theorem claim_C5_entropy_shard_count_independent
    (w : Word) (hw : w.length = wordSize) (dictionary : List Word)
    (hd : dictionary ≠ []) (N1 N2 : Nat) (h1 : 1 ≤ N1) (hok1 : poolOk N1)
    (h2 : 1 ≤ N2) (hok2 : poolOk N2) (hne : N1 ≠ N2) :
    poolCalculateEntropy N1 w dictionary = poolCalculateEntropy N2 w dictionary := by
  rw [pool_eq_total N1 h1, pool_eq_total N2 h2]

theorem claim_C5_witness :
    poolCalculateEntropy 2 ['c','r','a','n','e']
        [['c','r','a','n','e'], ['s','l','a','t','e']]
      = poolCalculateEntropy 4 ['c','r','a','n','e']
        [['c','r','a','n','e'], ['s','l','a','t','e']] :=
  claim_C5_entropy_shard_count_independent ['c','r','a','n','e'] (by decide)
    [['c','r','a','n','e'], ['s','l','a','t','e']] (by decide)
    2 4 (by norm_num) (poolOk_of_le 2 (by decide)) (by norm_num)
    (poolOk_of_le 4 (by decide)) (by norm_num)

lemma getD_set_self {α : Type*} (l : List α) (i : Nat) (x d : α)
    (h : i < l.length) : (l.set i x).getD i d = x := by
  rw [List.getD_eq_getElem?_getD, List.getElem?_set_self h]
  rfl

lemma getD_set_ne {α : Type*} (l : List α) (i j : Nat) (x d : α) (h : i ≠ j) :
    (l.set i x).getD j d = l.getD j d := by
  rw [List.getD_eq_getElem?_getD, List.getElem?_set_ne h,
    ← List.getD_eq_getElem?_getD]

lemma getD_replicate_self {α : Type*} (n m : Nat) (a : α) :
    (List.replicate n a).getD m a = a := by
  rw [List.getD_eq_getElem?_getD, List.getElem?_replicate]
  split <;> rfl

/-- The invariant maintained on the unscramble map through both passes of
createHint: it keeps length wordSize; an entry j mapped to guess
position m means the answer letter at j equals the guess letter at m,
m is in range, and either m = j (a pass-1 match) or the guess and answer
disagree at m (a pass-2 assignment); and every position where guess and
answer agree maps to itself. -/
def UnsInv (guess answer : Word) (uns : List (Option Nat)) : Prop :=
  uns.length = wordSize ∧
  (∀ j m, uns.getD j none = some m →
    charAt answer j = charAt guess m ∧ m < wordSize ∧
    (m = j ∨ charAt guess m ≠ charAt answer m)) ∧
  (∀ j, j < wordSize → charAt guess j = charAt answer j →
    uns.getD j none = some j)

lemma pass1_getD (g a : Word) (j : Nat) :
    (pass1 g a).getD j none
      = if j < wordSize then
          (if charAt g j = charAt a j then some j else none)
        else none := by
  unfold pass1
  rw [List.getD_eq_getElem?_getD, List.getElem?_map]
  by_cases hj : j < wordSize
  · rw [List.getElem?_range hj]
    simp [hj]
  · rw [List.getElem?_eq_none (by simpa using not_lt.mp hj)]
    simp [hj]

lemma pass1_inv (g a : Word) : UnsInv g a (pass1 g a) := by
  refine ⟨by simp [pass1], ?_, ?_⟩
  · intro j m hjm
    rw [pass1_getD] at hjm
    by_cases hj : j < wordSize
    · rw [if_pos hj] at hjm
      by_cases hga : charAt g j = charAt a j
      · rw [if_pos hga] at hjm
        obtain rfl : j = m := by simpa using hjm
        exact ⟨hga.symm, hj, Or.inl rfl⟩
      · rw [if_neg hga] at hjm
        exact absurd hjm (by simp)
    · rw [if_neg hj] at hjm
      exact absurd hjm (by simp)
  · intro j hj hga
    rw [pass1_getD, if_pos hj, if_pos hga]

lemma pass2step_inv (g a : Word) (uns : List (Option Nat)) (i : Nat)
    (hi : i < wordSize) (h : UnsInv g a uns) :
    UnsInv g a (pass2step g a uns i) := by
  unfold pass2step
  by_cases heq : charAt g i = charAt a i
  · rwa [if_pos heq]
  · rw [if_neg heq]
    cases hfind : (List.range wordSize).find? (fun j =>
        (charAt a j == charAt g i) && (uns.getD j none).isNone) with
    | none => exact h
    | some j0 =>
      have hj0 : j0 < wordSize := by
        simpa using List.mem_of_find?_eq_some hfind
      have hp := List.find?_some hfind
      rw [Bool.and_eq_true] at hp
      have hpa : charAt a j0 = charAt g i := by simpa using hp.1
      have hpnone : uns.getD j0 none = none :=
        Option.isNone_iff_eq_none.mp hp.2
      obtain ⟨hlen, hmain, hself⟩ := h
      refine ⟨by simpa using hlen, ?_, ?_⟩
      · intro j m hjm
        by_cases hjj : j = j0
        · subst hjj
          rw [getD_set_self uns j (some i) none (hlen ▸ hj0)] at hjm
          obtain rfl : i = m := by simpa using hjm
          exact ⟨hpa, hi, Or.inr heq⟩
        · rw [getD_set_ne uns j0 j _ none (fun hh => hjj hh.symm)] at hjm
          exact hmain j m hjm
      · intro j hj hga
        have hju : uns.getD j none = some j := hself j hj hga
        have hjne : j ≠ j0 := by
          intro hh
          rw [hh, hpnone] at hju
          exact Option.noConfusion hju
        rw [getD_set_ne uns j0 j _ none (fun hh => hjne hh.symm)]
        exact hju

lemma unscramble_inv (g a : Word) : UnsInv g a (unscramble g a) := by
  unfold unscramble
  exact foldl_range_inv (pass2step g a) (fun _ u => UnsInv g a u) wordSize
    (pass1 g a) (pass1_inv g a) (fun t b ht hb => pass2step_inv g a b t ht hb)

lemma hint_ne_absent_source (uns : List (Option Nat))
    (hval : ∀ j m, uns.getD j none = some m → m < wordSize) :
    ∀ p, (hintFromUnscramble uns).getD p absent ≠ absent →
      ∃ j, j < wordSize ∧ uns.getD j none = some p := by
  unfold hintFromUnscramble
  refine (foldl_range_inv _ (fun _ (h : wordHint) => h.length = wordSize ∧
      ∀ p, h.getD p absent ≠ absent →
        ∃ j, j < wordSize ∧ uns.getD j none = some p) wordSize _
    ⟨by simp, fun p hp => absurd (getD_replicate_self wordSize p absent) hp⟩
    ?_).2
  intro t b ht hb
  cases hc : uns.getD t none with
  | none =>
    simp only [hc]
    exact hb
  | some m =>
    have hm5 : m < wordSize := hval t m hc
    simp only [hc]
    have hcase : ∀ (x : letterHint), (b.set m x).length = wordSize ∧
        ∀ p, (b.set m x).getD p absent ≠ absent →
          ∃ j, j < wordSize ∧ uns.getD j none = some p := by
      intro x
      refine ⟨by simpa using hb.1, ?_⟩
      intro p hp
      by_cases hpm : p = m
      · exact ⟨t, ht, hpm ▸ hc⟩
      · rw [getD_set_ne b m p x absent (fun hh => hpm hh.symm)] at hp
        exact hb.2 p hp
    split <;> exact hcase _

lemma hint_correct_source (uns : List (Option Nat))
    (hval : ∀ j m, uns.getD j none = some m → m < wordSize) :
    ∀ p, (hintFromUnscramble uns).getD p absent = correct →
      uns.getD p none = some p := by
  unfold hintFromUnscramble
  refine (foldl_range_inv _ (fun _ (h : wordHint) => h.length = wordSize ∧
      ∀ p, h.getD p absent = correct → uns.getD p none = some p) wordSize _
    ⟨by simp, fun p hp => absurd (getD_replicate_self wordSize p absent ▸ hp)
      (by decide)⟩ ?_).2
  intro t b ht hb
  cases hc : uns.getD t none with
  | none =>
    simp only [hc]
    exact hb
  | some m =>
    have hm5 : m < wordSize := hval t m hc
    simp only [hc]
    by_cases hmt : m = t
    · rw [if_pos hmt]
      refine ⟨by simpa using hb.1, ?_⟩
      intro p hp
      by_cases hpm : p = m
      · subst hpm
        subst hmt
        exact hc
      · rw [getD_set_ne b m p correct absent (fun hh => hpm hh.symm)] at hp
        exact hb.2 p hp
    · rw [if_neg hmt]
      refine ⟨by simpa using hb.1, ?_⟩
      intro p hp
      by_cases hpm : p = m
      · subst hpm
        rw [getD_set_self b p present absent (hb.1 ▸ hm5)] at hp
        exact absurd hp (by decide)
      · rw [getD_set_ne b m p present absent (fun hh => hpm hh.symm)] at hp
        exact hb.2 p hp

lemma count_eq_card_positions (l : List Char) (c : Char) :
    ((Finset.range l.length).filter fun j => charAt l j = c).card = l.count c := by
  induction l with
  | nil => simp
  | cons x xs ih =>
    rw [Finset.card_filter, List.length_cons, Finset.sum_range_succ']
    rw [Finset.card_filter] at ih
    have h1 : ∀ j, charAt (x :: xs) (j + 1) = charAt xs j := by
      intro j
      simp [charAt]
    have h0 : charAt (x :: xs) 0 = x := by simp [charAt]
    simp only [h1, h0]
    rw [ih, List.count_cons]
    by_cases hx : x = c
    · simp [hx]
    · simp [hx, fun hh => hx (by simpa using hh)]

open Classical in
/-- C2: createHint credits each answer-letter occurrence to at most one
guess position: for every letter c, the number of guess positions holding
c whose hint is Present or Correct never exceeds the number of
occurrences of c in the answer.  Each marked guess position p is the
image of some answer position j under the unscramble map, that map sends
each answer position to at most one guess position, and a mapped answer
position always holds the same letter as its guess position. -/
theorem claim_C2_no_double_credit (guess answer : Word)
    (hg : guess.length = wordSize) (ha : answer.length = wordSize) (c : Char) :
    ((Finset.range wordSize).filter fun p =>
        charAt guess p = c ∧
        (createHint guess answer).getD p absent ≠ absent).card
      ≤ answer.count c := by
  obtain ⟨hlen, hmain, hself⟩ := unscramble_inv guess answer
  have hval : ∀ j m, (unscramble guess answer).getD j none = some m →
      m < wordSize := fun j m hjm => (hmain j m hjm).2.1
  have hsrc := hint_ne_absent_source (unscramble guess answer) hval
  have hcard : ((Finset.range wordSize).filter fun p =>
      charAt guess p = c ∧
      (createHint guess answer).getD p absent ≠ absent).card
      ≤ ((Finset.range answer.length).filter fun j =>
          charAt answer j = c).card := by
    apply Finset.card_le_card_of_injOn (fun p =>
      if hp : ∃ j, j < wordSize ∧
          (unscramble guess answer).getD j none = some p
      then hp.choose else 0)
    · intro p hp
      rw [Finset.mem_filter, Finset.mem_range] at hp
      obtain ⟨hp5, hgc, hmark⟩ := hp
      have hex : ∃ j, j < wordSize ∧
          (unscramble guess answer).getD j none = some p := hsrc p hmark
      have hspec := hex.choose_spec
      simp only [dif_pos hex]
      rw [Finset.mem_filter, Finset.mem_range]
      refine ⟨by omega, ?_⟩
      rw [(hmain hex.choose p hspec.2).1, hgc]
    · intro p1 hp1 p2 hp2 hfeq
      rw [Finset.mem_coe, Finset.mem_filter] at hp1 hp2
      have hex1 : ∃ j, j < wordSize ∧
          (unscramble guess answer).getD j none = some p1 :=
        hsrc p1 hp1.2.2
      have hex2 : ∃ j, j < wordSize ∧
          (unscramble guess answer).getD j none = some p2 :=
        hsrc p2 hp2.2.2
      simp only [dif_pos hex1, dif_pos hex2] at hfeq
      have h1 := hex1.choose_spec.2
      have h2 := hex2.choose_spec.2
      rw [hfeq] at h1
      exact Option.some.inj (h1.symm.trans h2)
  calc ((Finset.range wordSize).filter fun p =>
        charAt guess p = c ∧
        (createHint guess answer).getD p absent ≠ absent).card
      ≤ ((Finset.range answer.length).filter fun j =>
          charAt answer j = c).card := hcard
    _ = answer.count c := count_eq_card_positions answer c

theorem claim_C2_witness :
    createHint ['a','a','b','b','b'] ['a','b','a','b','a']
        = [correct, present, present, correct, absent] ∧
    ((Finset.range wordSize).filter fun p =>
        charAt ['a','a','b','b','b'] p = 'a' ∧
        (createHint ['a','a','b','b','b'] ['a','b','a','b','a']).getD p absent
          ≠ absent).card
      ≤ ['a','b','a','b','a'].count 'a' :=
  ⟨by decide,
    claim_C2_no_double_credit ['a','a','b','b','b'] ['a','b','a','b','a']
      (by decide) (by decide) 'a'⟩

lemma hint_all_self (uns : List (Option Nat)) (hlen : uns.length = wordSize)
    (hself : ∀ j, j < wordSize → uns.getD j none = some j) :
    hintFromUnscramble uns = List.replicate wordSize correct := by
  have hfin := foldl_range_inv
    (fun (hint : wordHint) idx =>
      match uns.getD idx none with
      | some m => if m = idx then hint.set m correct else hint.set m present
      | none => hint)
    (fun t (h : wordHint) => h.length = wordSize ∧
      ∀ p, p < t → h.getD p absent = correct)
    wordSize (List.replicate wordSize absent)
    ⟨by simp, fun p hp => absurd hp (by omega)⟩
    (by
      intro t b ht hb
      have hbt := hself t ht
      simp only [hbt, eq_self_iff_true, if_true]
      refine ⟨by simpa using hb.1, ?_⟩
      intro p hp
      by_cases hpt : p = t
      · subst hpt
        exact getD_set_self b p correct absent (hb.1 ▸ ht)
      · rw [getD_set_ne b t p correct absent (fun hh => hpt hh.symm)]
        exact hb.2 p (by omega))
  have hfin2 : (hintFromUnscramble uns).length = wordSize ∧
      ∀ p, p < wordSize → (hintFromUnscramble uns).getD p absent = correct :=
    hfin
  apply List.ext_getElem
  · simp [hfin2.1]
  · intro n h1 h2
    have hn5 : n < wordSize := by
      have := hfin2.1
      omega
    have hval := hfin2.2 n hn5
    rw [List.getD_eq_getElem _ _ h1] at hval
    rw [hval, List.getElem_replicate]

lemma createHint_self (w : Word) :
    createHint w w = List.replicate wordSize correct := by
  obtain ⟨hlen, hmain, hself⟩ := unscramble_inv w w
  exact hint_all_self (unscramble w w) hlen (fun j hj => hself j hj rfl)

lemma createHint_all_correct_iff (w v : Word) (hw : w.length = wordSize)
    (hv : v.length = wordSize) :
    createHint w v = List.replicate wordSize correct ↔ v = w := by
  constructor
  · intro hall
    obtain ⟨hlen, hmain, hself⟩ := unscramble_inv w v
    have hval : ∀ j m, (unscramble w v).getD j none = some m → m < wordSize :=
      fun j m hjm => (hmain j m hjm).2.1
    apply List.ext_getElem (by omega)
    intro n h1 h2
    have hn5 : n < wordSize := by omega
    have hcc : (createHint w v).getD n absent = correct := by
      rw [hall, List.getD_eq_getElem _ _ (by simpa using hn5),
        List.getElem_replicate]
    have huns := hint_correct_source (unscramble w v) hval n hcc
    have hchar : charAt v n = charAt w n := (hmain n n huns).1
    have hgd : v.getD n '?' = w.getD n '?' := hchar
    rwa [List.getD_eq_getElem v '?' h1, List.getD_eq_getElem w '?' h2] at hgd
  · rintro rfl
    exact createHint_self _


lemma filterNum_allCorrect (w : Word) (hw : w.length = wordSize)
    (d : List Word) (hd5 : ∀ v ∈ d, v.length = wordSize) (hnd : d.Nodup)
    (hwd : w ∈ d) :
    (constraint.mk (List.replicate wordSize correct) w).filterNum d = 1 := by
  unfold constraint.filterNum
  apply countP_eq_one_of_nodup _ d hnd w hwd
  · unfold constraint.satisfies
    simp [createHint_self w]
  · intro b hb hpb
    unfold constraint.satisfies at hpb
    rw [beq_iff_eq] at hpb
    exact (createHint_all_correct_iff w b hw (hd5 b hb)).mp hpb

lemma hintContribution_nonneg (w : Word) (d : List Word) (h : wordHint) :
    0 ≤ hintContribution w d h := by
  unfold hintContribution
  split_ifs with hz
  · exact le_refl 0
  · have hcnt : (0:ℝ) < ((constraint.mk h w).filterNum d : ℝ) :=
      lt_of_le_of_ne (Nat.cast_nonneg _) (Ne.symm hz)
    have hlen : (constraint.mk h w).filterNum d ≤ d.length :=
      List.countP_le_length _
    have hlenR : ((constraint.mk h w).filterNum d : ℝ) ≤ (d.length : ℝ) := by
      exact_mod_cast hlen
    have hdpos : (0:ℝ) < (d.length : ℝ) := lt_of_lt_of_le hcnt hlenR
    have hp0 : 0 < ((constraint.mk h w).filterNum d : ℝ) / (d.length : ℝ) :=
      div_pos hcnt hdpos
    have hp1 : ((constraint.mk h w).filterNum d : ℝ) / (d.length : ℝ) ≤ 1 :=
      (div_le_one hdpos).mpr hlenR
    exact mul_nonneg
      (Real.logb_nonneg (by norm_num) (one_le_one_div hp0 hp1))
      (le_of_lt hp0)

lemma entropy_pos (w : Word) (d : List Word) (hw : w.length = wordSize)
    (hd5 : ∀ v ∈ d, v.length = wordSize) (hnd : d.Nodup) (hwd : w ∈ d)
    (h2 : 2 ≤ d.length) :
    0 < (possibleWordHints.map (hintContribution w d)).sum := by
  have hmem : List.replicate wordSize correct ∈ possibleWordHints := by
    have h242 : natToHint (3 ^ wordSize - 1) = List.replicate wordSize correct := by
      decide
    show List.replicate wordSize correct ∈ allPossibleWordHints
    rw [allHints_eq_map, ← h242]
    exact List.mem_map_of_mem _ (List.mem_range.mpr (by decide))
  have hterm : 0 < hintContribution w d (List.replicate wordSize correct) := by
    unfold hintContribution
    rw [filterNum_allCorrect w hw d hd5 hnd hwd]
    rw [if_neg (by norm_num)]
    have hn : (2:ℝ) ≤ (d.length : ℝ) := by exact_mod_cast h2
    have hnpos : (0:ℝ) < (d.length : ℝ) := by linarith
    push_cast
    rw [one_div_one_div]
    exact mul_pos (Real.logb_pos (by norm_num) (by linarith))
      (div_pos one_pos hnpos)
  have hnn : ∀ x ∈ possibleWordHints.map (hintContribution w d), 0 ≤ x := by
    intro x hx
    obtain ⟨h0, -, rfl⟩ := List.mem_map.mp hx
    exact hintContribution_nonneg w d h0
  exact lt_of_lt_of_le hterm
    (List.single_le_sum hnn _ (List.mem_map_of_mem _ hmem))

lemma bestGuess_fold_spec (E : Word → ℝ) :
    ∀ (l : List Word) (b : Word) (e : ℝ),
      (l.foldl (fun best w => if best.2 < E w then (w, E w) else best) (b, e)
          = (b, e) ∧ ∀ x ∈ l, E x ≤ e) ∨
      (∃ i, i < l.length ∧
        l.foldl (fun best w => if best.2 < E w then (w, E w) else best) (b, e)
          = (l.getD i [], E (l.getD i [])) ∧
        e < E (l.getD i []) ∧
        (∀ x ∈ l, E x ≤ E (l.getD i [])) ∧
        (∀ j, j < i → E (l.getD j []) < E (l.getD i []))) := by
  intro l
  induction l with
  | nil =>
    intro b e
    left
    exact ⟨rfl, by simp⟩
  | cons x xs ih =>
    intro b e
    rw [List.foldl_cons]
    by_cases hx : e < E x
    · rw [if_pos hx]
      rcases ih x (E x) with ⟨hres, hall⟩ | ⟨i, hi, hres, hlt, hall, hpre⟩
      · right
        refine ⟨0, by simp, ?_, ?_, ?_, ?_⟩
        · rw [hres]
          simp [List.getD_cons_zero]
        · simpa [List.getD_cons_zero] using hx
        · intro y hy
          rcases List.mem_cons.mp hy with rfl | hyt
          · simp [List.getD_cons_zero]
          · simpa [List.getD_cons_zero] using hall y hyt
        · intro j hj
          omega
      · right
        refine ⟨i + 1, by simpa using hi, ?_, ?_, ?_, ?_⟩
        · rw [hres]
          simp [List.getD_cons_succ]
        · simp only [List.getD_cons_succ]
          exact lt_trans hx hlt
        · intro y hy
          simp only [List.getD_cons_succ]
          rcases List.mem_cons.mp hy with rfl | hyt
          · exact le_of_lt hlt
          · exact hall y hyt
        · intro j hj
          cases j with
          | zero =>
            simp only [List.getD_cons_zero, List.getD_cons_succ]
            exact hlt
          | succ j2 =>
            simp only [List.getD_cons_succ]
            exact hpre j2 (by omega)
    · rw [if_neg hx]
      push_neg at hx
      rcases ih b e with ⟨hres, hall⟩ | ⟨i, hi, hres, hlt, hall, hpre⟩
      · left
        refine ⟨hres, ?_⟩
        intro y hy
        rcases List.mem_cons.mp hy with rfl | hyt
        · exact hx
        · exact hall y hyt
      · right
        refine ⟨i + 1, by simpa using hi, ?_, ?_, ?_, ?_⟩
        · rw [hres]
          simp [List.getD_cons_succ]
        · simp only [List.getD_cons_succ]
          exact hlt
        · intro y hy
          simp only [List.getD_cons_succ]
          rcases List.mem_cons.mp hy with rfl | hyt
          · exact le_trans hx (le_of_lt hlt)
          · exact hall y hyt
        · intro j hj
          cases j with
          | zero =>
            simp only [List.getD_cons_zero, List.getD_cons_succ]
            exact lt_of_le_of_lt hx hlt
          | succ j2 =>
            simp only [List.getD_cons_succ]
            exact hpre j2 (by omega)

/-- C7: on non-first rounds getBestGuess scores every dictionary word
against the dictionary and returns the first word attaining the strictly
greatest entropy together with that entropy, so the result is a
deterministic function of the dictionary.  The hypotheses are the game
loop's invariants at every such call: at least two candidates, distinct
5-letter words, and a successfully created pool. -/
theorem claim_C7_best_guess_is_first_argmax (N : Nat) (hN : 1 ≤ N)
    (hok : poolOk N) (d : List Word) (hlen2 : 2 ≤ d.length) (hnd : d.Nodup)
    (hd5 : ∀ v ∈ d, v.length = wordSize) :
    ∃ i, i < d.length ∧
      getBestGuess N d = (d.getD i [], poolCalculateEntropy N (d.getD i []) d) ∧
      (∀ v ∈ d, poolCalculateEntropy N v d
        ≤ poolCalculateEntropy N (d.getD i []) d) ∧
      (∀ j, j < i → poolCalculateEntropy N (d.getD j []) d
        < poolCalculateEntropy N (d.getD i []) d) := by
  have hspec := bestGuess_fold_spec (fun v => poolCalculateEntropy N v d) d [] 0
  rcases hspec with ⟨hres, hall⟩ | ⟨i, hi, hres, hlt, hall, hpre⟩
  · exfalso
    have h0 : (0:Nat) < d.length := by omega
    have hhead : d.getD 0 [] ∈ d := by
      rw [List.getD_eq_getElem _ _ h0]
      exact List.getElem_mem h0
    have hpos : 0 < poolCalculateEntropy N (d.getD 0 []) d := by
      rw [pool_eq_total N hN]
      exact entropy_pos (d.getD 0 []) d (hd5 _ hhead) hd5 hnd hhead hlen2
    exact absurd (hall _ hhead) (not_le.mpr hpos)
  · exact ⟨i, hi, hres, hall, hpre⟩

theorem claim_C7_witness :
    ∃ i, i < ([['b','a','r','e','s'], ['c','r','a','n','e']] : List Word).length ∧
      getBestGuess 4 [['b','a','r','e','s'], ['c','r','a','n','e']]
        = (([['b','a','r','e','s'], ['c','r','a','n','e']] : List Word).getD i [],
           poolCalculateEntropy 4
             (([['b','a','r','e','s'], ['c','r','a','n','e']] : List Word).getD i [])
             [['b','a','r','e','s'], ['c','r','a','n','e']]) ∧
      (∀ v ∈ ([['b','a','r','e','s'], ['c','r','a','n','e']] : List Word),
        poolCalculateEntropy 4 v [['b','a','r','e','s'], ['c','r','a','n','e']]
          ≤ poolCalculateEntropy 4
            (([['b','a','r','e','s'], ['c','r','a','n','e']] : List Word).getD i [])
            [['b','a','r','e','s'], ['c','r','a','n','e']]) ∧
      (∀ j, j < i →
        poolCalculateEntropy 4
            (([['b','a','r','e','s'], ['c','r','a','n','e']] : List Word).getD j [])
            [['b','a','r','e','s'], ['c','r','a','n','e']]
          < poolCalculateEntropy 4
            (([['b','a','r','e','s'], ['c','r','a','n','e']] : List Word).getD i [])
            [['b','a','r','e','s'], ['c','r','a','n','e']]) :=
  claim_C7_best_guess_is_first_argmax 4 (by norm_num) (poolOk_of_le 4 (by decide))
    [['b','a','r','e','s'], ['c','r','a','n','e']] (by decide) (by decide)
    (by decide)
